import Mathlib

/-!
Shallow embedding of the Rodun cutting-stock core: the optimizer
(`src/optimizer.cpp`) and the cut-to-part attribution logic of the report
generator (`src/pdf_export.cpp`).  Lengths (C++ `double`) are modelled as
rationals, quantities (C++ `int`) as integers.
-/

namespace Rodun

open scoped List

/-- A part record, as declared in `optimizer.h`. -/
structure Part where
  part_number : String
  length : ℚ
  quantity : ℤ
  dimension : String
deriving DecidableEq

/-- Expansion loop of `optimizeCuts` (optimizer.cpp lines 7-11): each part
contributes `quantity` copies of its length, in catalog order.  The C++ loop
`for (int i = 0; i < part.quantity; ++i)` makes `max(quantity, 0)` copies. -/
def expand (parts : List Part) : List ℚ :=
  parts.flatMap fun p => List.replicate p.quantity.toNat p.length

/-- The descending sort of optimizer.cpp line 13
(`std::ranges::sort(allParts, std::greater<>())`): since the sorted elements
are plain numbers, any sorting algorithm yields the same list, and we model it
by insertion sort with respect to `a ≥ b`. -/
def sortDesc (l : List ℚ) : List ℚ :=
  List.insertionSort (fun a b => b ≤ a) l

/-- The placement loop body of `optimizeCuts` (optimizer.cpp lines 15-27): scan
the bins in order, sum up the bin (`used`), place the cut in the first bin with
`used + partLen <= stockLength`, and append a fresh one-cut bin if none fits. -/
def placeCut (stockLength : ℚ) (bins : List (List ℚ)) (partLen : ℚ) : List (List ℚ) :=
  match bins with
  | [] => [[partLen]]
  | stock :: rest =>
    if stock.sum + partLen ≤ stockLength then (stock ++ [partLen]) :: rest
    else stock :: placeCut stockLength rest partLen

/-- `optimizeCuts` (optimizer.cpp lines 6-28): expand, sort descending, then
first-fit place every cut, starting from the caller-supplied `result`. -/
def optimizeCuts (parts : List Part) (stockLength : ℚ) (result : List (List ℚ)) :
    List (List ℚ) :=
  (sortDesc (expand parts)).foldl (placeCut stockLength) result

/-! ### Attribution (pdf_export.cpp)

`generatePDF` processes one dimension at a time; the parts of that dimension
are the ones with `part.dimension == dim` (pdf_export.cpp lines 55-59), and
`lengthToPartMap[len]` holds, in catalog order, exactly the parts of the
dimension whose length equals `len` exactly (`std::unordered_map<double, ...>`
keys by exact equality). -/

def partsInDim (parts : List Part) (dim : String) : List Part :=
  parts.filter fun p => decide (p.dimension = dim)

/-- `lengthToPartMap[len]`: the parts of the dimension whose length is exactly
`len`, in catalog order (pdf_export.cpp lines 53-59). -/
def partsWithLength (parts : List Part) (dim : String) (len : ℚ) : List Part :=
  (partsInDim parts dim).filter fun p => decide (p.length = len)

/-- The `cutsSeenSoFar` tolerance count (pdf_export.cpp lines 163-177): the
number of cuts among the earlier ones (`prior`) within `0.01` of `len`. -/
def countNear (xs : List ℚ) (len : ℚ) : ℕ :=
  (xs.filter fun x => decide (|x - len| < 1/100)).length

/-- The cumulative-quantity scan (pdf_export.cpp lines 180-188): walk the
same-length parts keeping a running `cumulativeQuantity`, returning the first
part with `cutsSeenSoFar < cumulativeQuantity + quantity`; the default
`currentPartNumber` of an exhausted scan is the empty string (line 146). -/
def pickPart (k cum : ℤ) : List Part → String
  | [] => ""
  | p :: rest =>
    if k < cum + p.quantity then p.part_number else pickPart k (cum + p.quantity) rest

/-- The per-cut attribution as a function of the tolerance count `k`
(pdf_export.cpp lines 144-190): no part of this exact length gives the
fallback empty part number; a single part is assigned unconditionally;
otherwise the cumulative-quantity scan decides. -/
def attribOfCount (parts : List Part) (dim : String) (len : ℚ) (k : ℕ) : String :=
  match partsWithLength parts dim len with
  | [] => ""
  | [p] => p.part_number
  | pw => pickPart (k : ℤ) 0 pw

/-- One cut's attribution: the code's `cutsSeenSoFar` at a cut is the
tolerance count over all cuts that precede it in walk order (full previous
stocks, lines 164-171, plus the earlier cuts of the current stock,
lines 172-177), here threaded as the `prior` list. -/
def attribOne (parts : List Part) (dim : String) (prior : List ℚ) (len : ℚ) : String :=
  attribOfCount parts dim len (countNear prior len)

/-- Attribution of the cuts of one stock, threading the walk prefix. -/
def attribBin (parts : List Part) (dim : String) : List ℚ → List ℚ → List String
  | _prior, [] => []
  | prior, len :: rest =>
    attribOne parts dim prior len :: attribBin parts dim (prior ++ [len]) rest

/-- Attribution of a whole plan, stocks in creation order. -/
def attribPlan (parts : List Part) (dim : String) :
    List ℚ → List (List ℚ) → List (List String)
  | _prior, [] => []
  | prior, bin :: bins =>
    attribBin parts dim prior bin :: attribPlan parts dim (prior ++ bin) bins

/-- `partUsageCount[pn]` (pdf_export.cpp line 193): how many cuts of the plan
are attributed to part number `pn`. -/
def usageCount (parts : List Part) (dim : String) (stocks : List (List ℚ))
    (pn : String) : ℕ :=
  ((attribPlan parts dim [] stocks).flatten.filter fun s => decide (s = pn)).length

/-! ### Specification-side definitions (for the refinement claim C1)

Modelled from the spec: a `CutDemand` carries its originating record's catalog
position and its occurrence index within the record; demands are sorted by
length descending, ties by catalog position, then by occurrence index, and are
first-fit placed. -/

/-- Modelled from the spec: an ephemeral unit of work, one required cut with a
back-reference to its originating record (catalog position, occurrence). -/
structure CutDemand where
  length : ℚ
  pos : ℕ
  occ : ℕ
deriving DecidableEq

/-- Modelled from the spec: expansion producing `quantity` demands per record,
in catalog order, tagged with catalog position and occurrence index. -/
def specExpand (parts : List Part) : List CutDemand :=
  parts.enum.flatMap fun pi =>
    (List.range pi.2.quantity.toNat).map fun j => ⟨pi.2.length, pi.1, j⟩

/-- Modelled from the spec: the total demand order, length descending, ties by
catalog position, then occurrence index. -/
def demandLE (a b : CutDemand) : Prop :=
  b.length < a.length ∨
    (a.length = b.length ∧ (a.pos < b.pos ∨ (a.pos = b.pos ∧ a.occ ≤ b.occ)))

instance : DecidableRel demandLE := fun a b => by
  unfold demandLE; infer_instance

/-- Modelled from the spec: place a cut into the earliest-created bin whose
current sum plus the length stays within the stock length, appending a new
one-cut bin when no existing bin fits. -/
def specPlace (stockLength : ℚ) (bins : List (List ℚ)) (len : ℚ) : List (List ℚ) :=
  match bins with
  | [] => [[len]]
  | bin :: later =>
    if bin.sum + len ≤ stockLength then (bin ++ [len]) :: later
    else bin :: specPlace stockLength later len

/-- Modelled from the spec: the full first-fit-decreasing plan, demands sorted
by `demandLE` and placed in order, starting from no bins. -/
def specFFD (parts : List Part) (stockLength : ℚ) : List (List ℚ) :=
  ((List.insertionSort demandLE (specExpand parts)).map CutDemand.length).foldl
    (specPlace stockLength) []

/-! ### Order instances for the descending comparison -/

instance : IsTotal ℚ (fun a b => b ≤ a) := ⟨fun a b => le_total b a⟩

instance : IsTrans ℚ (fun a b => b ≤ a) := ⟨fun _ _ _ hab hbc => le_trans hbc hab⟩

instance : IsAntisymm ℚ (fun a b => b ≤ a) := ⟨fun _ _ h1 h2 => le_antisymm h2 h1⟩

/-! ### Basic facts about expansion and placement -/

lemma expand_mem {parts : List Part} {x : ℚ} (hx : x ∈ expand parts) :
    ∃ p ∈ parts, x = p.length := by
  simp only [expand, List.mem_flatMap, List.mem_replicate] at hx
  obtain ⟨p, hp, -, rfl⟩ := hx
  exact ⟨p, hp, rfl⟩

lemma expand_length (parts : List Part) :
    (expand parts).length = (parts.map fun p => p.quantity.toNat).sum := by
  induction parts with
  | nil => rfl
  | cons p rest ih =>
    simp [expand, List.flatMap_cons, ih.symm, expand]

lemma sortDesc_perm (l : List ℚ) : sortDesc l ~ l :=
  List.perm_insertionSort _ l

lemma sortDesc_sorted (l : List ℚ) : (sortDesc l).Sorted (fun a b => b ≤ a) :=
  List.sorted_insertionSort _ l

lemma placeCut_flatten_perm (L : ℚ) (bins : List (List ℚ)) (x : ℚ) :
    (placeCut L bins x).flatten ~ x :: bins.flatten := by
  induction bins with
  | nil => simp [placeCut]
  | cons stock rest ih =>
    by_cases h : stock.sum + x ≤ L
    · simp only [placeCut, h, if_true, List.flatten_cons, List.append_assoc,
        List.singleton_append]
      exact List.perm_middle
    · simp only [placeCut, h, if_false, List.flatten_cons]
      calc stock ++ (placeCut L rest x).flatten
          ~ stock ++ (x :: rest.flatten) := (ih.append_left stock)
        _ ~ x :: (stock ++ rest.flatten) := List.perm_middle

lemma foldl_place_flatten_perm (L : ℚ) :
    ∀ (l : List ℚ) (bins : List (List ℚ)),
      (l.foldl (placeCut L) bins).flatten ~ bins.flatten ++ l := by
  intro l
  induction l with
  | nil => simp
  | cons x rest ih =>
    intro bins
    calc ((x :: rest).foldl (placeCut L) bins).flatten
        = (rest.foldl (placeCut L) (placeCut L bins x)).flatten := by simp
      _ ~ (placeCut L bins x).flatten ++ rest := ih _
      _ ~ (x :: bins.flatten) ++ rest := ((placeCut_flatten_perm L bins x).append_right rest)
      _ ~ bins.flatten ++ (x :: rest) := by
          simpa using (@List.perm_middle ℚ x bins.flatten rest).symm

lemma optimizeCuts_flatten_perm (parts : List Part) (L : ℚ) :
    (optimizeCuts parts L []).flatten ~ expand parts := by
  have h := foldl_place_flatten_perm L (sortDesc (expand parts)) []
  simpa [optimizeCuts] using h.trans (sortDesc_perm (expand parts))

/-! ### Capacity invariant -/

lemma placeCut_sum_le {L x : ℚ} {bins : List (List ℚ)}
    (hb : ∀ b ∈ bins, b.sum ≤ L) (hx : x ≤ L) :
    ∀ b ∈ placeCut L bins x, b.sum ≤ L := by
  induction bins with
  | nil =>
    intro b hbmem
    simp only [placeCut, List.mem_singleton] at hbmem
    subst hbmem; simpa using hx
  | cons stock rest ih =>
    intro b hbmem
    by_cases h : stock.sum + x ≤ L
    · simp only [placeCut, h, if_true, List.mem_cons] at hbmem
      rcases hbmem with rfl | hbmem
      · simpa using h
      · exact hb b (List.mem_cons_of_mem _ hbmem)
    · simp only [placeCut, h, if_false, List.mem_cons] at hbmem
      rcases hbmem with rfl | hbmem
      · exact hb b (List.mem_cons_self _ _)
      · exact ih (fun c hc => hb c (List.mem_cons_of_mem _ hc)) b hbmem

lemma foldl_place_sum_le (L : ℚ) :
    ∀ (l : List ℚ) (bins : List (List ℚ)),
      (∀ y ∈ l, y ≤ L) → (∀ b ∈ bins, b.sum ≤ L) →
      ∀ b ∈ l.foldl (placeCut L) bins, b.sum ≤ L := by
  intro l
  induction l with
  | nil => intro bins _ hb; simpa using hb
  | cons x rest ih =>
    intro bins hl hb
    simp only [List.foldl_cons]
    exact ih _ (fun y hy => hl y (List.mem_cons_of_mem _ hy))
      (placeCut_sum_le hb (hl x (List.mem_cons_self _ _)))

/-- C2: for every dimension group in which every part's length is at most the
stock length, every bin of the plan produced by `optimizeCuts` from an empty
initial result has cut lengths summing to at most the stock length. -/
theorem C2_capacity_invariant (parts : List Part) (L : ℚ)
    (h : ∀ p ∈ parts, p.length ≤ L) :
    ∀ bin ∈ optimizeCuts parts L [], bin.sum ≤ L := by
  intro bin hbin
  refine foldl_place_sum_le L (sortDesc (expand parts)) [] ?_ (by simp) bin hbin
  intro y hy
  obtain ⟨p, hp, rfl⟩ := expand_mem ((sortDesc_perm _).mem_iff.mp hy)
  exact h p hp

/-- Witness for C2 at the spec's concrete scenario A. -/
theorem C2_capacity_invariant_witness :
    ([50, 50] : List ℚ).sum ≤ 100 :=
  C2_capacity_invariant [⟨"P1", 50, 2, "d"⟩, ⟨"P2", 30, 3, "d"⟩] 100
    (by intro p hp; fin_cases hp <;> norm_num)
    [50, 50]
    (by norm_num [optimizeCuts, sortDesc, expand, placeCut,
      List.insertionSort, List.orderedInsert])

/-! ### Bins stay internally non-increasing -/

lemma placeCut_mem {L x : ℚ} {bins : List (List ℚ)} {b : List ℚ}
    (hb : b ∈ placeCut L bins x) :
    b ∈ bins ∨ (∃ b0 ∈ bins, b = b0 ++ [x]) ∨ b = [x] := by
  induction bins with
  | nil =>
    simp only [placeCut, List.mem_singleton] at hb
    exact Or.inr (Or.inr hb)
  | cons stock rest ih =>
    by_cases h : stock.sum + x ≤ L
    · simp only [placeCut, h, if_true, List.mem_cons] at hb
      rcases hb with rfl | hb
      · exact Or.inr (Or.inl ⟨stock, List.mem_cons_self _ _, rfl⟩)
      · exact Or.inl (List.mem_cons_of_mem _ hb)
    · simp only [placeCut, h, if_false, List.mem_cons] at hb
      rcases hb with rfl | hb
      · exact Or.inl (List.mem_cons_self _ _)
      · rcases ih hb with h1 | ⟨b0, hb0, rfl⟩ | h3
        · exact Or.inl (List.mem_cons_of_mem _ h1)
        · exact Or.inr (Or.inl ⟨b0, List.mem_cons_of_mem _ hb0, rfl⟩)
        · exact Or.inr (Or.inr h3)

lemma foldl_place_pairwise (L : ℚ) :
    ∀ (l : List ℚ) (bins : List (List ℚ)),
      l.Sorted (fun a b => b ≤ a) →
      (∀ b ∈ bins, b.Pairwise (fun a c => c ≤ a)) →
      (∀ b ∈ bins, ∀ e ∈ b, ∀ y ∈ l, y ≤ e) →
      ∀ b ∈ l.foldl (placeCut L) bins, b.Pairwise (fun a c => c ≤ a) := by
  intro l
  induction l with
  | nil => intro bins _ hp _; simpa using hp
  | cons x rest ih =>
    intro bins hs hp hord
    simp only [List.foldl_cons]
    apply ih
    · exact hs.of_cons
    · intro b hb
      rcases placeCut_mem hb with h1 | ⟨b0, hb0, rfl⟩ | rfl
      · exact hp b h1
      · rw [List.pairwise_append]
        refine ⟨hp b0 hb0, by simp, ?_⟩
        intro a ha y hy
        simp only [List.mem_singleton] at hy
        subst hy
        exact hord b0 hb0 a ha _ (List.mem_cons_self _ _)
      · simp
    · intro b hb e he y hy
      rcases placeCut_mem hb with h1 | ⟨b0, hb0, rfl⟩ | rfl
      · exact hord b h1 e he y (List.mem_cons_of_mem _ hy)
      · rcases List.mem_append.mp he with he0 | hex
        · exact hord b0 hb0 e he0 y (List.mem_cons_of_mem _ hy)
        · simp only [List.mem_singleton] at hex
          subst hex
          exact (List.sorted_cons.mp hs).1 y hy
      · simp only [List.mem_singleton] at he
        subst he
        exact (List.sorted_cons.mp hs).1 y hy

/-- C9: in every bin of a plan produced by `optimizeCuts` from an empty result,
the cut lengths are non-increasing in placement order. -/
theorem C9_bins_non_increasing (parts : List Part) (L : ℚ) :
    ∀ bin ∈ optimizeCuts parts L [], bin.Pairwise (fun a c => c ≤ a) := by
  intro bin hbin
  exact foldl_place_pairwise L (sortDesc (expand parts)) []
    (sortDesc_sorted _) (by simp) (by simp) bin hbin

/-- Witness for C9 at the spec's concrete scenario A. -/
theorem C9_bins_non_increasing_witness :
    ([30, 30, 30] : List ℚ).Pairwise (fun a c => c ≤ a) :=
  C9_bins_non_increasing [⟨"P1", 50, 2, "d"⟩, ⟨"P2", 30, 3, "d"⟩] 100
    [30, 30, 30]
    (by norm_num [optimizeCuts, sortDesc, expand, placeCut,
      List.insertionSort, List.orderedInsert])

/-! ### The result argument is appended to, never cleared -/

lemma placeCut_length_le (L x : ℚ) (bins : List (List ℚ)) :
    bins.length ≤ (placeCut L bins x).length := by
  induction bins with
  | nil => simp [placeCut]
  | cons stock rest ih =>
    by_cases h : stock.sum + x ≤ L <;> simp [placeCut, h]
    omega

lemma placeCut_getD (L x : ℚ) (bins : List (List ℚ)) :
    ∀ i, i < bins.length →
      ∃ t, (placeCut L bins x).getD i [] = bins.getD i [] ++ t := by
  induction bins with
  | nil => intro i h; simp at h
  | cons stock rest ih =>
    intro i hi
    by_cases h : stock.sum + x ≤ L
    · cases i with
      | zero => exact ⟨[x], by simp [placeCut, h]⟩
      | succ j => exact ⟨[], by simp [placeCut, h]⟩
    · cases i with
      | zero => exact ⟨[], by simp [placeCut, h]⟩
      | succ j =>
        obtain ⟨t, ht⟩ := ih j (by simpa using hi)
        exact ⟨t, by simpa [placeCut, h] using ht⟩

lemma foldl_place_length_le (L : ℚ) :
    ∀ (l : List ℚ) (bins : List (List ℚ)),
      bins.length ≤ (l.foldl (placeCut L) bins).length := by
  intro l
  induction l with
  | nil => simp
  | cons x rest ih =>
    intro bins
    simp only [List.foldl_cons]
    exact le_trans (placeCut_length_le L x bins) (ih _)

lemma foldl_place_getD (L : ℚ) :
    ∀ (l : List ℚ) (bins : List (List ℚ)) (i : ℕ), i < bins.length →
      ∃ t, (l.foldl (placeCut L) bins).getD i [] = bins.getD i [] ++ t := by
  intro l
  induction l with
  | nil => intro bins i _; exact ⟨[], by simp⟩
  | cons x rest ih =>
    intro bins i hi
    obtain ⟨t1, ht1⟩ := placeCut_getD L x bins i hi
    obtain ⟨t2, ht2⟩ := ih (placeCut L bins x) i
      (lt_of_lt_of_le hi (placeCut_length_le L x bins))
    exact ⟨t1 ++ t2, by simp only [List.foldl_cons, ht2, ht1, List.append_assoc]⟩

/-- C10: `optimizeCuts` appends into the caller-supplied result without
clearing it — every pre-existing bin is retained in place (only ever extended
by appended cuts), and a new cut can land in a pre-existing bin that fits it,
as witnessed by the concrete call placing a cut of 10 into the pre-existing
bin `[5]`. -/
theorem C10_result_appended_not_cleared :
    (∀ (parts : List Part) (L : ℚ) (init : List (List ℚ)),
        init.length ≤ (optimizeCuts parts L init).length ∧
        ∀ i, i < init.length →
          ∃ t, (optimizeCuts parts L init).getD i [] = init.getD i [] ++ t) ∧
      optimizeCuts [⟨"A", 10, 1, "d"⟩] 100 [[5]] = [[5, 10]] := by
  refine ⟨fun parts L init => ⟨?_, ?_⟩, ?_⟩
  · exact foldl_place_length_le L (sortDesc (expand parts)) init
  · exact fun i hi => foldl_place_getD L (sortDesc (expand parts)) init i hi
  · norm_num [optimizeCuts, sortDesc, expand, placeCut,
      List.insertionSort, List.orderedInsert]

/-- Witness for C10: the pre-existing bin count survives a concrete call. -/
theorem C10_result_appended_not_cleared_witness :
    ([[7]] : List (List ℚ)).length ≤ (optimizeCuts [⟨"B", 20, 1, "d"⟩] 100 [[7]]).length :=
  (C10_result_appended_not_cleared.1 [⟨"B", 20, 1, "d"⟩] 100 [[7]]).1

/-! ### No infeasibility or validation errors exist in the code -/

/-- C3 counterexample: a part longer than the stock is not rejected; the
optimizer returns a plan and the oversized cut sits in a bin whose total
exceeds the stock length. -/
theorem C3_counterexample_oversized_packed :
    optimizeCuts [⟨"P", 60, 1, "d"⟩] 50 [] = [[60]] ∧
      (50 : ℚ) < ([(60 : ℚ)] : List ℚ).sum := by
  constructor
  · norm_num [optimizeCuts, sortDesc, expand, placeCut,
      List.insertionSort, List.orderedInsert]
  · norm_num

/-- C3 amended: `optimizeCuts` never fails; whenever some part with positive
quantity is longer than the stock length (and all lengths are non-negative),
the returned plan contains a bin whose cut total exceeds the stock length —
the oversized cut is silently packed. -/
theorem C3_amended_oversized_bin_exists (parts : List Part) (L : ℚ) (p : Part)
    (hp : p ∈ parts) (hlen : L < p.length) (hq : 1 ≤ p.quantity)
    (hpos : ∀ q ∈ parts, 0 ≤ q.length) :
    ∃ bin ∈ optimizeCuts parts L [], L < bin.sum := by
  have hmem : p.length ∈ expand parts := by
    simp only [expand, List.mem_flatMap]
    refine ⟨p, hp, ?_⟩
    simp only [List.mem_replicate]
    exact ⟨by omega, trivial⟩
  have hmem2 : p.length ∈ (optimizeCuts parts L []).flatten :=
    (optimizeCuts_flatten_perm parts L).mem_iff.mpr hmem
  obtain ⟨bin, hbin, hin⟩ := List.mem_flatten.mp hmem2
  refine ⟨bin, hbin, lt_of_lt_of_le hlen ?_⟩
  refine List.single_le_sum ?_ _ hin
  intro x hx
  have hxf : x ∈ (optimizeCuts parts L []).flatten := List.mem_flatten.mpr ⟨bin, hbin, hx⟩
  obtain ⟨q, hq2, rfl⟩ := expand_mem ((optimizeCuts_flatten_perm parts L).mem_iff.mp hxf)
  exact hpos q hq2

/-- Witness for the amended C3 at a concrete oversized input. -/
theorem C3_amended_oversized_bin_exists_witness :
    ∃ bin ∈ optimizeCuts [⟨"P", 60, 1, "d"⟩] 50 [], (50 : ℚ) < bin.sum :=
  C3_amended_oversized_bin_exists [⟨"P", 60, 1, "d"⟩] 50 ⟨"P", 60, 1, "d"⟩
    (by simp) (by norm_num) (by norm_num)
    (by intro q hq; simp only [List.mem_singleton] at hq; subst hq; norm_num)

/-- C4 counterexample: with `stockLength = 0` (violating `stockLength > 0`)
the optimizer does not fail — it returns a plan. -/
theorem C4_counterexample_no_validation :
    optimizeCuts [⟨"P", 10, 1, "d"⟩] 0 [] = [[10]] := by
  norm_num [optimizeCuts, sortDesc, expand, placeCut,
    List.insertionSort, List.orderedInsert]

/-- C4 amended: `optimizeCuts` performs no input validation and never fails:
for every input, valid or not, it returns a plan containing exactly
`max(quantity, 0)` cuts per part (so a part with `quantity <= 0` simply
contributes no cuts). -/
theorem C4_amended_total_no_validation (parts : List Part) (L : ℚ) :
    (optimizeCuts parts L []).flatten.length = (parts.map fun p => p.quantity.toNat).sum :=
  ((optimizeCuts_flatten_perm parts L).length_eq).trans (expand_length parts)

/-! ### C1: the code realises the spec's first-fit-decreasing plan -/

instance : IsTotal CutDemand demandLE := ⟨by
  intro a b
  unfold demandLE
  rcases lt_trichotomy a.length b.length with h | h | h
  · right; left; exact h
  · rcases lt_trichotomy a.pos b.pos with h2 | h2 | h2
    · left; right; exact ⟨h, Or.inl h2⟩
    · rcases Nat.le_total a.occ b.occ with h3 | h3
      · left; right; exact ⟨h, Or.inr ⟨h2, h3⟩⟩
      · right; right; exact ⟨h.symm, Or.inr ⟨h2.symm, h3⟩⟩
    · right; right; exact ⟨h.symm, Or.inl h2⟩
  · left; left; exact h⟩

instance : IsTrans CutDemand demandLE := ⟨by
  intro a b c hab hbc
  unfold demandLE at *
  rcases hab with h1 | ⟨e1, h1⟩ <;> rcases hbc with h2 | ⟨e2, h2⟩
  · exact Or.inl (lt_trans h2 h1)
  · exact Or.inl (by rw [← e2]; exact h1)
  · exact Or.inl (by rw [e1]; exact h2)
  · refine Or.inr ⟨e1.trans e2, ?_⟩
    rcases h1 with h1 | ⟨p1, o1⟩ <;> rcases h2 with h2 | ⟨p2, o2⟩ <;> omega⟩

lemma demandLE_length {a b : CutDemand} (h : demandLE a b) : b.length ≤ a.length := by
  rcases h with h | ⟨e, -⟩
  · exact le_of_lt h
  · exact le_of_eq e.symm

lemma enumFrom_expand (parts : List Part) :
    ∀ k : ℕ,
      ((List.enumFrom k parts).flatMap fun pi =>
          (List.range pi.2.quantity.toNat).map fun j =>
            (⟨pi.2.length, pi.1, j⟩ : CutDemand)).map CutDemand.length
        = expand parts := by
  induction parts with
  | nil => intro k; rfl
  | cons p rest ih =>
    intro k
    simp only [List.enumFrom_cons, List.flatMap_cons, List.map_append, ih (k + 1)]
    congr 1
    simp only [List.map_map, expand]
    have : (CutDemand.length ∘ fun j => (⟨p.length, k, j⟩ : CutDemand))
        = fun _ => p.length := rfl
    rw [this]
    simp [List.map_const', List.eq_replicate_iff]

lemma specExpand_map_length (parts : List Part) :
    (specExpand parts).map CutDemand.length = expand parts := by
  have h : parts.enum = List.enumFrom 0 parts := List.enum_eq_enumFrom
  unfold specExpand
  rw [h]
  exact enumFrom_expand parts 0

lemma specPlace_eq_placeCut (L : ℚ) :
    ∀ (bins : List (List ℚ)) (x : ℚ), specPlace L bins x = placeCut L bins x := by
  intro bins x
  induction bins with
  | nil => rfl
  | cons b rest ih => by_cases h : b.sum + x ≤ L <;> simp [specPlace, placeCut, h, ih]

/-- C1: `optimizeCuts` from an empty result produces exactly the spec's
first-fit-decreasing plan: expansion in catalog order, demands sorted by
length descending with ties broken by catalog position then occurrence index,
each placed into the earliest-created fitting bin, with a new one-cut bin
appended when none fits. -/
theorem C1_first_fit_decreasing (parts : List Part) (L : ℚ) :
    optimizeCuts parts L [] = specFFD parts L := by
  have hperm : (List.insertionSort demandLE (specExpand parts)).map CutDemand.length
      ~ sortDesc (expand parts) := by
    have h1 : (List.insertionSort demandLE (specExpand parts)).map CutDemand.length
        ~ (specExpand parts).map CutDemand.length :=
      (List.perm_insertionSort demandLE (specExpand parts)).map _
    rw [specExpand_map_length] at h1
    exact h1.trans (sortDesc_perm (expand parts)).symm
  have hsorted : ((List.insertionSort demandLE (specExpand parts)).map
      CutDemand.length).Sorted (fun a b => b ≤ a) :=
    List.Pairwise.map CutDemand.length (fun _ _ h => demandLE_length h)
      (List.sorted_insertionSort demandLE (specExpand parts))
  have heq : (List.insertionSort demandLE (specExpand parts)).map CutDemand.length
      = sortDesc (expand parts) :=
    List.eq_of_perm_of_sorted hperm hsorted (sortDesc_sorted _)
  have hfun : specPlace L = placeCut L :=
    funext fun bins => funext fun x => specPlace_eq_placeCut L bins x
  unfold optimizeCuts specFFD
  rw [heq, hfun]

/-! ### C5: concrete scenario B (two records sharing length 40, stock 50) -/

/-- C5: on two records of length 40 with quantities 1 and 2 and stock 50, the
optimizer yields three singleton bins, attribution assigns bin 0 to the
earlier record and bins 1 and 2 to the later one, and the attributed counts
match the quantities. -/
theorem C5_scenario_shared_length :
    optimizeCuts (partsInDim [⟨"P1", 40, 1, "d"⟩, ⟨"P2", 40, 2, "d"⟩] "d") 50 []
        = [[40], [40], [40]] ∧
      attribPlan [⟨"P1", 40, 1, "d"⟩, ⟨"P2", 40, 2, "d"⟩] "d" [] [[40], [40], [40]]
        = [["P1"], ["P2"], ["P2"]] ∧
      usageCount [⟨"P1", 40, 1, "d"⟩, ⟨"P2", 40, 2, "d"⟩] "d" [[40], [40], [40]] "P1" = 1 ∧
      usageCount [⟨"P1", 40, 1, "d"⟩, ⟨"P2", 40, 2, "d"⟩] "d" [[40], [40], [40]] "P2" = 2 := by
  refine ⟨?_, ?_, ?_, ?_⟩ <;>
    norm_num [optimizeCuts, sortDesc, expand, placeCut, List.insertionSort,
      List.orderedInsert, attribPlan, attribBin, attribOne, attribOfCount, countNear,
      pickPart, partsWithLength, partsInDim, usageCount, List.filter_cons, abs_lt,
      le_abs, String.reduceEq] <;>
    simp

/-! ### C7: exhausted length groups fall back, they do not fail -/

/-- C7 counterexample: walking a plan holding three cuts of length 40 against a
catalog declaring only two, the third cut is assigned the fallback empty part
number — no failure of any kind occurs. -/
theorem C7_counterexample_fallback_assigned :
    attribPlan [⟨"P1", 40, 1, "d"⟩, ⟨"P2", 40, 1, "d"⟩] "d" [] [[40], [40], [40]]
      = [["P1"], ["P2"], [""]] := by
  norm_num [attribPlan, attribBin, attribOne, attribOfCount, countNear, pickPart,
    partsWithLength, partsInDim, List.filter_cons, abs_lt, le_abs, String.reduceEq]

lemma pickPart_exhausted :
    ∀ (l : List Part) (k cum : ℤ), (∀ q ∈ l, 0 ≤ q.quantity) →
      cum + (l.map Part.quantity).sum ≤ k → pickPart k cum l = "" := by
  intro l
  induction l with
  | nil => intro k cum _ _; rfl
  | cons p rest ih =>
    intro k cum hq hsum
    simp only [List.map_cons, List.sum_cons] at hsum
    have h0 : 0 ≤ (rest.map Part.quantity).sum := by
      refine List.sum_nonneg ?_
      intro x hx
      obtain ⟨q, hq2, rfl⟩ := List.mem_map.mp hx
      exact hq q (List.mem_cons_of_mem _ hq2)
    have hnot : ¬ (k < cum + p.quantity) := by linarith
    simp only [pickPart, if_neg hnot]
    exact ih k (cum + p.quantity) (fun q hq2 => hq q (List.mem_cons_of_mem _ hq2))
      (by linarith)

/-- C7 amended: when attribution reaches a cut of a length shared by at least
two catalog records after the tolerance count has consumed all their declared
(non-negative) quantities, it does not fail with any error — it assigns the
fallback empty part number (rendered as the default ID). -/
theorem C7_amended_fallback_on_exhaustion (parts : List Part) (dim : String)
    (prior : List ℚ) (len : ℚ)
    (h2 : 2 ≤ (partsWithLength parts dim len).length)
    (hnn : ∀ q ∈ partsWithLength parts dim len, 0 ≤ q.quantity)
    (hex : ((partsWithLength parts dim len).map Part.quantity).sum
      ≤ (countNear prior len : ℤ)) :
    attribOne parts dim prior len = "" := by
  rcases hl : partsWithLength parts dim len with - | ⟨a, - | ⟨b, rest⟩⟩
  · rw [hl] at h2; simp at h2
  · rw [hl] at h2; simp at h2
  · rw [hl] at hnn hex
    have hshow : attribOne parts dim prior len
        = pickPart (countNear prior len : ℤ) 0 (a :: b :: rest) := by
      unfold attribOne attribOfCount
      rw [hl]
    rw [hshow]
    exact pickPart_exhausted _ _ 0 hnn (by simpa using hex)

/-- Witness for the amended C7 at a concrete exhausted input. -/
theorem C7_amended_fallback_on_exhaustion_witness :
    attribOne [⟨"P1", 40, 1, "d"⟩, ⟨"P2", 40, 1, "d"⟩] "d" [40, 40] 40 = "" :=
  C7_amended_fallback_on_exhaustion [⟨"P1", 40, 1, "d"⟩, ⟨"P2", 40, 1, "d"⟩] "d"
    [40, 40] 40
    (by norm_num [partsWithLength, partsInDim, List.filter_cons, String.reduceEq])
    (by intro q hq; fin_cases hq <;> norm_num)
    (by norm_num [partsWithLength, partsInDim, countNear, List.filter_cons, abs_lt,
      String.reduceEq])

/-! ### C8: grouping is by exact length; only the seen-count uses the tolerance -/

/-- C8 counterexample: two parts whose lengths differ by `1/200 < 0.01` are
not grouped together — the exact-equality length map for length 40 holds only
the first part. -/
theorem C8_counterexample_tolerance_not_used_in_grouping :
    partsWithLength [⟨"P1", 40, 1, "d"⟩, ⟨"P2", 8001/200, 1, "d"⟩] "d" 40
        = [⟨"P1", 40, 1, "d"⟩] ∧
      |(8001/200 : ℚ) - 40| < 1/100 ∧ (8001/200 : ℚ) ≠ 40 := by
  refine ⟨?_, by norm_num [abs_lt], by norm_num⟩
  norm_num [partsWithLength, partsInDim, List.filter_cons, String.reduceEq]

/-- C8 amended: the length-to-part grouping uses exact equality of lengths
(no tolerance), while the count of previously seen cuts does use the fixed
0.01 tolerance — so two parts whose lengths differ by less than 0.01 but are
not exactly equal land in different groups even though their cuts are counted
together. -/
theorem C8_amended_exact_grouping (parts : List Part) (dim : String) (p q : Part)
    (hp : p ∈ partsInDim parts dim) (hq : q ∈ partsInDim parts dim)
    (hne : q.length ≠ p.length) (hclose : |q.length - p.length| < 1/100) :
    q ∉ partsWithLength parts dim p.length ∧ countNear [q.length] p.length = 1 := by
  constructor
  · intro hmem
    rw [partsWithLength, List.mem_filter] at hmem
    exact hne (by simpa using hmem.2)
  · have hc : decide (|q.length - p.length| < (100:ℚ)⁻¹) = true :=
      decide_eq_true (by rwa [← one_div])
    simp [countNear, hc]

/-- Witness for the amended C8 at concrete lengths 40 and 40.005. -/
theorem C8_amended_exact_grouping_witness :
    (⟨"P2", 8001/200, 1, "d"⟩ : Part)
        ∉ partsWithLength [⟨"P1", 40, 1, "d"⟩, ⟨"P2", 8001/200, 1, "d"⟩] "d" 40 ∧
      countNear [8001/200] 40 = 1 :=
  C8_amended_exact_grouping [⟨"P1", 40, 1, "d"⟩, ⟨"P2", 8001/200, 1, "d"⟩] "d"
    ⟨"P1", 40, 1, "d"⟩ ⟨"P2", 8001/200, 1, "d"⟩
    (by norm_num [partsInDim, List.filter_cons, String.reduceEq])
    (by norm_num [partsInDim, List.filter_cons, String.reduceEq])
    (by norm_num) (by norm_num [abs_lt])

/-! ### C6: attribution bookkeeping over the walk order -/

lemma attribBin_append (parts : List Part) (dim : String) :
    ∀ (xs ys prior : List ℚ),
      attribBin parts dim prior (xs ++ ys)
        = attribBin parts dim prior xs ++ attribBin parts dim (prior ++ xs) ys := by
  intro xs
  induction xs with
  | nil => intro ys prior; simp [attribBin]
  | cons x rest ih =>
    intro ys prior
    simp only [List.cons_append, attribBin, List.append_eq]
    rw [ih ys (prior ++ [x]), List.append_assoc, List.singleton_append]

lemma attribPlan_flatten (parts : List Part) (dim : String) :
    ∀ (bins : List (List ℚ)) (prior : List ℚ),
      (attribPlan parts dim prior bins).flatten
        = attribBin parts dim prior bins.flatten := by
  intro bins
  induction bins with
  | nil => intro prior; simp [attribPlan, attribBin]
  | cons b rest ih =>
    intro prior
    simp only [attribPlan, List.flatten_cons, ih, attribBin_append]

lemma attribBin_length (parts : List Part) (dim : String) :
    ∀ (flat prior : List ℚ),
      (attribBin parts dim prior flat).length = flat.length := by
  intro flat
  induction flat with
  | nil => intro prior; rfl
  | cons x rest ih => intro prior; simp [attribBin, ih]

lemma countNear_append (xs : List ℚ) (x len : ℚ) :
    countNear (xs ++ [x]) len
      = countNear xs len + (if |x - len| < 1/100 then 1 else 0) := by
  simp only [countNear, List.filter_append, List.length_append]
  congr 1
  by_cases h : |x - len| < 1/100
  · rw [if_pos h, List.filter_singleton, decide_eq_true h]
    rfl
  · rw [if_neg h, List.filter_singleton, decide_eq_false h]
    rfl

lemma pickPart_shift :
    ∀ (l : List Part) (k cum : ℤ), pickPart k cum l = pickPart (k - cum) 0 l := by
  intro l
  induction l with
  | nil => intro k cum; rfl
  | cons p rest ih =>
    intro k cum
    simp only [pickPart]
    by_cases h : k < cum + p.quantity
    · rw [if_pos h, if_pos (by omega)]
    · rw [if_neg h, if_neg (by omega), ih k (cum + p.quantity), ih (k - cum) (0 + p.quantity)]
      congr 1
      omega

lemma pickPart_mem :
    ∀ (l : List Part) (k cum : ℤ),
      pickPart k cum l = "" ∨ ∃ p ∈ l, pickPart k cum l = p.part_number := by
  intro l
  induction l with
  | nil => intro k cum; exact Or.inl rfl
  | cons p rest ih =>
    intro k cum
    simp only [pickPart]
    by_cases h : k < cum + p.quantity
    · rw [if_pos h]
      exact Or.inr ⟨p, List.mem_cons_self _ _, rfl⟩
    · rw [if_neg h]
      rcases ih k (cum + p.quantity) with he | ⟨q, hq, hqe⟩
      · exact Or.inl he
      · exact Or.inr ⟨q, List.mem_cons_of_mem _ hq, hqe⟩

lemma attribOfCount_eq (parts : List Part) (dim : String) (len : ℚ) (k : ℕ) :
    attribOfCount parts dim len k
      = match partsWithLength parts dim len with
        | [] => ""
        | [p] => p.part_number
        | pw => pickPart (k : ℤ) 0 pw := rfl

lemma attribOfCount_mem (parts : List Part) (dim : String) (len : ℚ) (k : ℕ) :
    attribOfCount parts dim len k = "" ∨
      ∃ p ∈ partsWithLength parts dim len,
        attribOfCount parts dim len k = p.part_number := by
  rcases hl : partsWithLength parts dim len with - | ⟨a, - | ⟨b, rest⟩⟩
  · left
    rw [attribOfCount_eq, hl]
  · right
    refine ⟨a, List.mem_cons_self _ _, ?_⟩
    rw [attribOfCount_eq, hl]
  · rw [attribOfCount_eq, hl]
    rcases pickPart_mem (a :: b :: rest) k 0 with he | ⟨p, hp, hpe⟩
    · exact Or.inl he
    · exact Or.inr ⟨p, hp, hpe⟩

lemma expand_countP (len : ℚ) :
    ∀ l : List Part,
      (expand l).countP (fun x => decide (x = len))
        = ((l.filter fun p => decide (p.length = len)).map fun p => p.quantity.toNat).sum := by
  intro l
  induction l with
  | nil => simp [expand]
  | cons p rest ih =>
    simp only [expand, List.flatMap_cons, List.countP_append] at ih ⊢
    by_cases h : p.length = len
    · rw [List.filter_cons_of_pos (by simpa using h)]
      simp only [List.map_cons, List.sum_cons]
      rw [ih]
      congr 1
      have : ∀ x ∈ List.replicate p.quantity.toNat p.length,
          decide (x = len) = true := by
        intro x hx
        rw [List.eq_of_mem_replicate hx]
        exact decide_eq_true h
      rw [List.countP_eq_length.mpr this, List.length_replicate]
    · rw [List.filter_cons_of_neg (by simpa using h)]
      rw [ih]
      have : (List.replicate p.quantity.toNat p.length).countP
          (fun x => decide (x = len)) = 0 := by
        rw [List.countP_eq_zero]
        intro x hx
        rw [List.eq_of_mem_replicate hx]
        simpa using h
      omega

/-- The central walk invariant: processing the flattened plan in walk order,
the cuts of length `len0` consume successive tolerance counts, so the number
of cuts the walk attributes to `pn` equals the number of count values `j`
(starting from the count contributed by `prior`) whose scan lands on `pn` —
provided no other length within the group is within tolerance of `len0` and
no other length's scan can ever produce `pn`. -/
lemma attribBin_countP (parts : List Part) (dim : String) (len0 : ℚ) (pn : String)
    (hOther : ∀ (len : ℚ) (k : ℕ), len ≠ len0 → attribOfCount parts dim len k ≠ pn) :
    ∀ (flat prior : List ℚ),
      (∀ x ∈ flat, x ≠ len0 → ¬ (|x - len0| < 1/100)) →
      (attribBin parts dim prior flat).countP (fun s => decide (s = pn))
        = (List.range (flat.countP (fun x => decide (x = len0)))).countP
            (fun j => decide
              (attribOfCount parts dim len0 (countNear prior len0 + j) = pn)) := by
  intro flat
  induction flat with
  | nil => intro prior _; simp [attribBin]
  | cons len rest ih =>
    intro prior hsep
    by_cases hlen : len = len0
    · subst hlen
      simp only [attribBin, List.countP_cons]
      rw [ih (prior ++ [len]) (fun x hx => hsep x (List.mem_cons_of_mem _ hx))]
      have hcn : countNear (prior ++ [len]) len = countNear prior len + 1 := by
        rw [countNear_append]
        norm_num
      rw [hcn]
      have h1 : rest.countP (fun x => decide (x = len))
            + (if decide True = true then 1 else 0)
          = rest.countP (fun x => decide (x = len)) + 1 := by simp
      rw [h1, List.range_succ_eq_map, List.countP_cons, List.countP_map]
      congr 1
      apply List.countP_congr
      intro j hj
      have harith : countNear prior len + 1 + j = countNear prior len + (j + 1) := by
        omega
      simp [Function.comp, harith]
    · simp only [attribBin, List.countP_cons]
      have hhead : decide (attribOne parts dim prior len = pn) = false :=
        decide_eq_false (hOther len (countNear prior len) hlen)
      rw [hhead]
      have hcn : countNear (prior ++ [len]) len0 = countNear prior len0 := by
        rw [countNear_append, if_neg (hsep len (List.mem_cons_self _ _) hlen)]
        omega
      have h0 : rest.countP (fun x => decide (x = len0))
            + (if decide (len = len0) = true then 1 else 0)
          = rest.countP (fun x => decide (x = len0)) := by simp [hlen]
      rw [h0, ih (prior ++ [len]) (fun x hx => hsep x (List.mem_cons_of_mem _ hx)), hcn]
      simp

/-- Counting which scan positions land on a given part number: with distinct
non-empty part numbers and non-negative quantities, the cumulative-quantity
scan sends exactly `quantity` of the positions `0 <= j < total` to each
part. -/
lemma pickPart_count (pn : String) (hpn : pn ≠ "") :
    ∀ (l : List Part) (p : Part), p ∈ l → p.part_number = pn →
      (l.map Part.part_number).Nodup → (∀ q ∈ l, 0 ≤ q.quantity) →
      (List.range ((l.map fun q => q.quantity.toNat).sum)).countP
          (fun j : ℕ => decide (pickPart (j : ℤ) 0 l = pn))
        = p.quantity.toNat := by
  intro l
  induction l with
  | nil => intro p hp _ _ _; simp at hp
  | cons q rest ih =>
    intro p hp hpe hnd hnn
    simp only [List.map_cons, List.sum_cons]
    rw [List.range_add, List.countP_append, List.countP_map]
    have hq0 : 0 ≤ q.quantity := hnn q (List.mem_cons_self _ _)
    have hndtl := List.nodup_cons.mp hnd
    have hval1 : ∀ j ∈ List.range q.quantity.toNat,
        pickPart (j : ℤ) 0 (q :: rest) = q.part_number := by
      intro j hj
      rw [List.mem_range] at hj
      have hlt : (j : ℤ) < q.quantity := by omega
      simp [pickPart, hlt]
    have hval2 : ∀ j : ℕ,
        pickPart ((q.quantity.toNat + j : ℕ) : ℤ) 0 (q :: rest)
          = pickPart (j : ℤ) 0 rest := by
      intro j
      have hge : ¬ (((q.quantity.toNat + j : ℕ) : ℤ) < 0 + q.quantity) := by
        push_cast
        omega
      simp only [pickPart, if_neg hge]
      rw [pickPart_shift]
      congr 1
      push_cast
      omega
    have hblock2 : (List.range ((rest.map fun r => r.quantity.toNat).sum)).countP
        ((fun j : ℕ => decide (pickPart (j : ℤ) 0 (q :: rest) = pn))
          ∘ fun x => q.quantity.toNat + x)
        = (List.range ((rest.map fun r => r.quantity.toNat).sum)).countP
            (fun j : ℕ => decide (pickPart (j : ℤ) 0 rest = pn)) := by
      apply List.countP_congr
      intro j hj
      simp only [Function.comp]
      rw [hval2 j]
    rcases List.mem_cons.mp hp with heq | hp2
    · subst heq
      have hnotin : pn ∉ rest.map Part.part_number := by
        rw [← hpe]
        exact hndtl.1
      have hz : (List.range ((rest.map fun r => r.quantity.toNat).sum)).countP
          (fun j : ℕ => decide (pickPart (j : ℤ) 0 rest = pn)) = 0 := by
        rw [List.countP_eq_zero]
        intro j hj
        simp only [decide_eq_true_eq]
        rcases pickPart_mem rest (j : ℤ) 0 with he | ⟨r, hr, hre⟩
        · rw [he]
          intro hcon
          exact hpn hcon.symm
        · rw [hre]
          intro hcon
          exact hnotin (hcon ▸ List.mem_map_of_mem Part.part_number hr)
      have hall : ∀ j ∈ List.range p.quantity.toNat,
          decide (pickPart (j : ℤ) 0 (p :: rest) = pn) = true := by
        intro j hj
        simp only [decide_eq_true_eq]
        rw [hval1 j hj, hpe]
      have hfull : (List.range p.quantity.toNat).countP
          (fun j : ℕ => decide (pickPart (j : ℤ) 0 (p :: rest) = pn))
          = p.quantity.toNat := by
        rw [List.countP_eq_length.mpr hall, List.length_range]
      rw [hblock2, hz, hfull]
      omega
    · have hqpn : q.part_number ≠ pn := by
        intro hcon
        apply hndtl.1
        rw [hcon, ← hpe]
        exact List.mem_map_of_mem Part.part_number hp2
      have hz1 : (List.range q.quantity.toNat).countP
          (fun j : ℕ => decide (pickPart (j : ℤ) 0 (q :: rest) = pn)) = 0 := by
        rw [List.countP_eq_zero]
        intro j hj
        simp only [decide_eq_true_eq]
        rw [hval1 j hj]
        exact hqpn
      rw [hblock2, hz1,
        ih p hp2 hpe hndtl.2 (fun r hr => hnn r (List.mem_cons_of_mem _ hr))]
      omega

/-- The per-count attribution sends exactly `quantity` of the positions
`0 <= j < total quantity of the length group` to each part of the group. -/
lemma attribOfCount_count (parts : List Part) (dim : String) (len0 : ℚ)
    (pn : String) (p : Part)
    (hp : p ∈ partsWithLength parts dim len0) (hpe : p.part_number = pn)
    (hpn : pn ≠ "")
    (hnd : ((partsWithLength parts dim len0).map Part.part_number).Nodup)
    (hnn : ∀ q ∈ partsWithLength parts dim len0, 0 ≤ q.quantity) :
    (List.range
        (((partsWithLength parts dim len0).map fun q => q.quantity.toNat).sum)).countP
        (fun j : ℕ => decide (attribOfCount parts dim len0 j = pn))
      = p.quantity.toNat := by
  rcases hl : partsWithLength parts dim len0 with - | ⟨a, - | ⟨b, rest⟩⟩
  · rw [hl] at hp
    simp at hp
  · rw [hl] at hp
    simp only [List.mem_singleton] at hp
    rw [hp]
    have hape : a.part_number = pn := by rw [← hp]; exact hpe
    have hall : ∀ j ∈ List.range (([a].map fun q => q.quantity.toNat).sum),
        (fun j : ℕ => decide (attribOfCount parts dim len0 j = pn)) j = true := by
      intro j hj
      simp only [decide_eq_true_eq]
      rw [attribOfCount_eq, hl]
      exact hape
    rw [List.countP_eq_length.mpr hall, List.length_range]
    simp
  · rw [hl] at hp hnd hnn
    have key : ∀ j ∈ List.range (((a :: b :: rest).map fun q => q.quantity.toNat).sum),
        decide (attribOfCount parts dim len0 j = pn)
          = decide (pickPart (j : ℤ) 0 (a :: b :: rest) = pn) := by
      intro j hj
      rw [attribOfCount_eq, hl]
    rw [List.countP_congr (fun j hj => by rw [key j hj])]
    exact pickPart_count pn hpn (a :: b :: rest) p hp hpe hnd hnn

lemma countP_or_disjoint (f g : String → Bool)
    (h : ∀ s, ¬ (f s = true ∧ g s = true)) :
    ∀ l : List String, l.countP (fun s => f s || g s) = l.countP f + l.countP g := by
  intro l
  induction l with
  | nil => simp
  | cons x rest ih =>
    simp only [List.countP_cons, ih]
    by_cases hf : f x = true
    · have hg : ¬ g x = true := fun hg => h x ⟨hf, hg⟩
      simp only [hf, Bool.true_or, if_true]
      simp [hg]
      omega
    · by_cases hg : g x = true <;>
        simp only [Bool.false_or, Bool.or_false,
          (Bool.not_eq_true _).mp hf] <;>
        simp [hg] <;> omega

lemma countP_mem_eq_sum :
    ∀ (pns : List String), pns.Nodup →
      ∀ l : List String,
        l.countP (fun s => decide (s ∈ pns))
          = (pns.map fun pn => l.countP (fun s => decide (s = pn))).sum := by
  intro pns
  induction pns with
  | nil => intro _ l; simp
  | cons pn rest ih =>
    intro hnd l
    have hndc := List.nodup_cons.mp hnd
    simp only [List.map_cons, List.sum_cons]
    have hfg : (fun s => decide (s ∈ pn :: rest))
        = fun s => decide (s = pn) || decide (s ∈ rest) := by
      funext s
      by_cases h1 : s = pn <;> by_cases h2 : s ∈ rest <;>
        simp [h1, h2, List.mem_cons]
    have hdisj : ∀ s, ¬ (decide (s = pn) = true ∧ decide (s ∈ rest) = true) := by
      intro s hcon
      obtain ⟨h1, h2⟩ := hcon
      simp only [decide_eq_true_eq] at h1 h2
      subst h1
      exact hndc.1 h2
    rw [hfg, countP_or_disjoint _ _ hdisj l, ih hndc.2 l]

/-- C6 counterexample: a valid group (all lengths positive, at most the stock
length, all quantities positive) in which two exactly-equal lengths coexist
with a third length inside their 0.01 tolerance band: the tolerance count
absorbs the 40.005 cut, record P1 ends with zero attributed cuts instead of
its quantity 1, and one cut receives the fallback empty attribution. -/
theorem C6_counterexample_tolerance_straddle :
    optimizeCuts (partsInDim [⟨"P1", 40, 1, "d"⟩, ⟨"P2", 40, 1, "d"⟩,
        ⟨"P3", 8001/200, 1, "d"⟩] "d") 50 []
      = [[8001/200], [40], [40]] ∧
    attribPlan [⟨"P1", 40, 1, "d"⟩, ⟨"P2", 40, 1, "d"⟩, ⟨"P3", 8001/200, 1, "d"⟩] "d" []
        [[8001/200], [40], [40]]
      = [["P3"], ["P2"], [""]] ∧
    usageCount [⟨"P1", 40, 1, "d"⟩, ⟨"P2", 40, 1, "d"⟩, ⟨"P3", 8001/200, 1, "d"⟩] "d"
        [[8001/200], [40], [40]] "P1" = 0 := by
  refine ⟨?_, ?_, ?_⟩ <;>
    norm_num [optimizeCuts, sortDesc, expand, placeCut, List.insertionSort,
      List.orderedInsert, attribPlan, attribBin, attribOne, attribOfCount, countNear,
      pickPart, partsWithLength, partsInDim, usageCount, List.filter_cons, abs_lt,
      le_abs, String.reduceEq] <;>
    simp

/-- C6 amended: for a dimension group of valid parts whose part numbers are
distinct and non-empty, and whose lengths are pairwise either exactly equal or
at least 0.01 apart, attribution over the optimizer's plan is total and exact:
every record's attributed count equals its quantity, and every cut is
attributed to a part number present in the catalog. -/
theorem C6_amended_attribution_totality (parts : List Part) (dim : String) (L : ℚ)
    (hq : ∀ p ∈ partsInDim parts dim, 0 < p.quantity)
    (hlpos : ∀ p ∈ partsInDim parts dim, 0 < p.length)
    (hlle : ∀ p ∈ partsInDim parts dim, p.length ≤ L)
    (hnd : ((partsInDim parts dim).map Part.part_number).Nodup)
    (hne : ∀ p ∈ partsInDim parts dim, p.part_number ≠ "")
    (hsep : ∀ p ∈ partsInDim parts dim, ∀ q ∈ partsInDim parts dim,
      p.length = q.length ∨ 1/100 ≤ |p.length - q.length|) :
    (∀ p ∈ partsInDim parts dim,
        usageCount parts dim (optimizeCuts (partsInDim parts dim) L []) p.part_number
          = p.quantity.toNat) ∧
      ∀ s ∈ (attribPlan parts dim []
          (optimizeCuts (partsInDim parts dim) L [])).flatten,
        s ∈ (partsInDim parts dim).map Part.part_number := by
  have hflatperm : (optimizeCuts (partsInDim parts dim) L []).flatten
      ~ expand (partsInDim parts dim) := optimizeCuts_flatten_perm _ L
  have hcount : ∀ p ∈ partsInDim parts dim,
      usageCount parts dim (optimizeCuts (partsInDim parts dim) L []) p.part_number
        = p.quantity.toNat := by
    intro p hp
    have hpn : p.part_number ≠ "" := hne p hp
    have hOther : ∀ (len : ℚ) (k : ℕ), len ≠ p.length →
        attribOfCount parts dim len k ≠ p.part_number := by
      intro len k hlen
      rcases attribOfCount_mem parts dim len k with h | ⟨r, hr, hre⟩
      · rw [h]
        exact fun hcon => hpn hcon.symm
      · rw [hre]
        intro hcon
        have hrg : r ∈ partsInDim parts dim := (List.mem_filter.mp hr).1
        have hrl : r.length = len := by
          have h2 := (List.mem_filter.mp hr).2
          simpa using h2
        have hrp : r = p := List.inj_on_of_nodup_map hnd hrg hp hcon
        exact hlen (by rw [← hrl, hrp])
    have hflat_sep : ∀ x ∈ (optimizeCuts (partsInDim parts dim) L []).flatten,
        x ≠ p.length → ¬ (|x - p.length| < 1/100) := by
      intro x hx hxne
      obtain ⟨q, hqg, rfl⟩ := expand_mem (hflatperm.mem_iff.mp hx)
      rcases hsep q hqg p hp with heq | hge
      · exact absurd heq hxne
      · intro hlt
        linarith
    have hstart : usageCount parts dim (optimizeCuts (partsInDim parts dim) L [])
        p.part_number
        = ((attribPlan parts dim []
            (optimizeCuts (partsInDim parts dim) L [])).flatten).countP
          (fun s => decide (s = p.part_number)) := by
      rw [usageCount, List.countP_eq_length_filter]
    rw [hstart, attribPlan_flatten,
      attribBin_countP parts dim p.length p.part_number hOther _ [] hflat_sep]
    simp only [show countNear [] p.length = 0 from rfl, Nat.zero_add]
    have hcnt : ((optimizeCuts (partsInDim parts dim) L []).flatten).countP
        (fun x => decide (x = p.length))
        = ((partsWithLength parts dim p.length).map fun q => q.quantity.toNat).sum := by
      rw [List.Perm.countP_eq _ hflatperm, expand_countP]
      rfl
    rw [hcnt]
    have hpmem : p ∈ partsWithLength parts dim p.length := by
      rw [partsWithLength, List.mem_filter]
      exact ⟨hp, by simp⟩
    have hndpw : ((partsWithLength parts dim p.length).map Part.part_number).Nodup :=
      ((List.filter_sublist _).map Part.part_number).nodup hnd
    have hnnpw : ∀ q ∈ partsWithLength parts dim p.length, 0 ≤ q.quantity :=
      fun q hqm => le_of_lt (hq q (List.mem_filter.mp hqm).1)
    exact attribOfCount_count parts dim p.length p.part_number p hpmem rfl hpn hndpw hnnpw
  refine ⟨hcount, ?_⟩
  have hplen : (attribPlan parts dim []
      (optimizeCuts (partsInDim parts dim) L [])).flatten.length
      = (optimizeCuts (partsInDim parts dim) L []).flatten.length := by
    rw [attribPlan_flatten]
    exact attribBin_length parts dim _ []
  have hsum_flat : (optimizeCuts (partsInDim parts dim) L []).flatten.length
      = ((partsInDim parts dim).map fun p => p.quantity.toNat).sum :=
    hflatperm.length_eq.trans (expand_length _)
  have hkey : ((attribPlan parts dim []
      (optimizeCuts (partsInDim parts dim) L [])).flatten).countP
      (fun s => decide (s ∈ (partsInDim parts dim).map Part.part_number))
      = (attribPlan parts dim []
          (optimizeCuts (partsInDim parts dim) L [])).flatten.length := by
    rw [countP_mem_eq_sum _ hnd, List.map_map]
    have hmapeq : (partsInDim parts dim).map
        ((fun pn => ((attribPlan parts dim []
            (optimizeCuts (partsInDim parts dim) L [])).flatten).countP
          fun s => decide (s = pn)) ∘ Part.part_number)
        = (partsInDim parts dim).map fun p => p.quantity.toNat := by
      apply List.map_congr_left
      intro p hp
      simp only [Function.comp]
      rw [List.countP_eq_length_filter]
      exact hcount p hp
    rw [hmapeq, ← hsum_flat, ← hplen]
  intro s hs
  have hmem := List.countP_eq_length.mp hkey s hs
  simpa using hmem

/-- Witness for the amended C6 at the spec's concrete scenario A. -/
theorem C6_amended_attribution_totality_witness :
    usageCount [⟨"P1", 50, 2, "d"⟩, ⟨"P2", 30, 3, "d"⟩] "d"
      (optimizeCuts (partsInDim [⟨"P1", 50, 2, "d"⟩, ⟨"P2", 30, 3, "d"⟩] "d") 100 [])
      "P1" = 2 := by
  have hgeq : partsInDim [⟨"P1", (50 : ℚ), 2, "d"⟩, ⟨"P2", 30, 3, "d"⟩] "d"
      = [⟨"P1", 50, 2, "d"⟩, ⟨"P2", 30, 3, "d"⟩] := by
    norm_num [partsInDim, List.filter_cons, String.reduceEq]
  have h := (C6_amended_attribution_totality
      [⟨"P1", (50 : ℚ), 2, "d"⟩, ⟨"P2", 30, 3, "d"⟩] "d" 100
      (by rw [hgeq]; intro p hp; fin_cases hp <;> norm_num)
      (by rw [hgeq]; intro p hp; fin_cases hp <;> norm_num)
      (by rw [hgeq]; intro p hp; fin_cases hp <;> norm_num)
      (by rw [hgeq]; simp)
      (by rw [hgeq]; intro p hp; fin_cases hp <;> simp)
      (by rw [hgeq]; intro p hp q hq2; fin_cases hp <;> fin_cases hq2 <;>
        norm_num [le_abs])).1
    ⟨"P1", 50, 2, "d"⟩ (by rw [hgeq]; simp)
  simpa using h


end Rodun
